import Mathlib

/-!
Verification of the n8n-clone workflow backend.

Part 1 embeds the mock server entry point (src/server/boot.rs): configuration
loading, the mock database and workflow-engine services, and the two HTTP
handlers.  Asynchronous effects (log lines, sleeps, the final HTTP response)
are modelled as an explicit event trace, and the global uuid generator as a
threaded fresh supply.

Part 2 models, from the specification, the Execution Planner (topological
levels) and workflow validation (three-color depth-first cycle detection),
which the scaffold does not implement.
-/

namespace N8n

/-- Minimal JSON value model covering the serde_json::json! literals built by
the handlers: strings and objects with ordered fields. -/
inductive Json where
  | str (s : String)
  | obj (fields : List (String × Json))

/-- HTTP response model: numeric status code plus JSON body. -/
structure HttpResponse where
  status : Nat
  body : Json

/-- Observable effects of the async handlers, in order: println! log lines,
tokio::time::sleep delays, and the HTTP response being produced. -/
inductive Event where
  | log (msg : String)
  | sleepMs (ms : Nat)
  | respond (r : HttpResponse)

/-- The process environment: env::var name returns some value when the
variable is set, none otherwise. -/
def Env : Type := String → Option String

/-- Model of Rust str::parse::\<u16\> as used by Config::load: an optional
leading plus sign, then one or more ASCII digits, and the value must fit in
u16 (at most 65535); returns none exactly when the Rust parse returns Err. -/
def parseU16 (s : String) : Option Nat :=
  let cs := match s.data with
    | '+' :: rest => rest
    | other => other
  if cs = [] then none
  else if cs.all Char.isDigit then
    let v := cs.foldl (fun a c => a * 10 + (c.toNat - 48)) 0
    if v ≤ 65535 then some v else none
  else none

/-- Config struct from boot.rs: listening port and database URL. -/
structure Config where
  port : Nat
  database_url : String
deriving DecidableEq

/-- Config::load: PORT defaulted to "5678" when unset, parsed as u16 with
parse failure falling back to 5678; DATABASE_URL defaulted when unset. -/
def Config.load (env : Env) : Config :=
  { port := (parseU16 ((env "PORT").getD "5678")).getD 5678,
    database_url := (env "DATABASE_URL").getD "postgres://user@host/n8n" }

/-- Mock database service (fieldless struct in the source). -/
structure DatabaseService where
deriving DecidableEq

/-- DatabaseService::connect: sleeps 100ms, logs, and always returns Ok(()). -/
def DatabaseService.connect (_db : DatabaseService) : List Event × Except String Unit :=
  ([.sleepMs 100, .log "  [Init] Database connection successful."], .ok ())

/-- Outcome of the match in main on db_service.connect(): Ok falls through to
the rest of the boot sequence, Err prints a fatal message and exits(1). -/
inductive BootStep where
  | proceed
  | fatalExit (msg : String)
deriving DecidableEq

/-- The db-connection match in main. -/
def mainDbStep (db : DatabaseService) : BootStep :=
  match (db.connect).2 with
  | .ok _ => .proceed
  | .error e => .fatalExit ("FATAL: Could not connect to database. " ++ e)

/-- Mock workflow engine: its only state is the is_running flag behind a
Mutex; the lock is uncontended in the model, so the field is the flag. -/
structure WorkflowEngine where
  is_running : Bool
deriving DecidableEq

/-- WorkflowEngine::new: flag starts false. -/
def WorkflowEngine.new : WorkflowEngine :=
  { is_running := false }

/-- WorkflowEngine::start_worker: sets the flag to true. -/
def WorkflowEngine.start_worker (e : WorkflowEngine) : WorkflowEngine :=
  { e with is_running := true }

/-- Model of uuid::Uuid::new_v4 as a fresh supply: the k-th draw of the
process is value k.  Only freshness matters (v4 uuids are random 122-bit
values whose collision-freedom is the crate's contract), so the rendering is
chosen to make injectivity provable; its concrete shape is otherwise
irrelevant to the server's behavior. -/
def uuidString (n : Nat) : String :=
  String.mk (List.replicate n 'u')

/-- The execution id built by trigger_workflow: format!("exec-" uuid). -/
def execIdString (n : Nat) : String :=
  "exec-" ++ uuidString n

/-- Result of one trigger_workflow call: the returned Result, the engine
state afterwards, the uuid supply afterwards, and the emitted event trace. -/
structure TriggerOut where
  result : Except String String
  engine : WorkflowEngine
  supply : Nat
  trace : List Event

/-- WorkflowEngine::trigger_workflow: logs the workflow id and payload
length, sleeps 50ms, and returns Ok with a freshly drawn execution id.  It
takes &self and never touches is_running, so the engine state passes through
unchanged; the uuid supply advances by one. -/
def WorkflowEngine.trigger_workflow (e : WorkflowEngine) (id : String)
    (body : List Nat) (supply : Nat) : TriggerOut :=
  { result := .ok (execIdString supply),
    engine := e,
    supply := supply + 1,
    trace := [.log ("  [Engine] Executing workflow " ++ id ++
                " with payload length " ++ toString body.length),
              .sleepMs 50] }

/-- The match in webhook_trigger on the awaited trigger result: Ok becomes a
200 with the execution id, Err a 500 with the error string. -/
def webhookResponseFor : Except String String → HttpResponse
  | .ok execution_id =>
    { status := 200,
      body := .obj [("message", .str "Workflow triggered successfully"),
                    ("executionId", .str execution_id)] }
  | .error e =>
    { status := 500,
      body := .obj [("message", .str "Error triggering workflow"),
                    ("error", .str e)] }

/-- Full observable outcome of one webhook_trigger request. -/
structure WebhookOut where
  trace : List Event
  engine : WorkflowEngine
  supply : Nat

/-- webhook_trigger handler (POST /webhook/workflowId): logs the incoming id,
awaits trigger_workflow to completion — its whole trace, 50ms delay included,
precedes the respond event — and only then responds from the completed
result. -/
def webhook_trigger (e : WorkflowEngine) (workflow_id : String)
    (body : List Nat) (supply : Nat) : WebhookOut :=
  let t := e.trigger_workflow workflow_id body supply
  { trace := .log ("  [TRIGGER] Incoming webhook for workflow ID: " ++ workflow_id) ::
      (t.trace ++ [.respond (webhookResponseFor t.result)]),
    engine := t.engine,
    supply := t.supply }

/-- The HTTP response produced by webhook_trigger (projection of the handler:
the response is computed from the completed trigger result). -/
def webhookResponse (e : WorkflowEngine) (id : String) (body : List Nat)
    (supply : Nat) : HttpResponse :=
  webhookResponseFor (e.trigger_workflow id body supply).result

/-- status_check handler (GET /api/v1/status): constant 200 with a fixed
JSON body, touching no state. -/
def status_check : HttpResponse :=
  { status := 200,
    body := .obj [("status", .str "ok"),
                  ("service", .str "n8n-clone-rust-backend"),
                  ("version", .str "0.1.0-bogus")] }

/-- Run a sequence of trigger_workflow calls (workflow id, payload), threading
engine state and uuid supply, and collect the returned results in order. -/
def runTriggers (e : WorkflowEngine) (supply : Nat) :
    List (String × List Nat) → List (Except String String)
  | [] => []
  | c :: rest =>
    let t := e.trigger_workflow c.1 c.2 supply
    t.result :: runTriggers t.engine t.supply rest

/-- Engine state after a sequence of trigger_workflow calls. -/
def engineAfter (e : WorkflowEngine) (supply : Nat) :
    List (String × List Nat) → WorkflowEngine
  | [] => e
  | c :: rest =>
    let t := e.trigger_workflow c.1 c.2 supply
    engineAfter t.engine t.supply rest

theorem uuidString_injective : Function.Injective uuidString := by
  intro a b h
  have hdata : List.replicate a 'u' = List.replicate b 'u' := congrArg String.data h
  have hlen := congrArg List.length hdata
  simpa using hlen

theorem execIdString_injective : Function.Injective execIdString := by
  intro a b h
  have hdata : ("exec-").data ++ List.replicate a 'u'
      = ("exec-").data ++ List.replicate b 'u' := congrArg String.data h
  have hrep := List.append_cancel_left hdata
  have hlen := congrArg List.length hrep
  simpa using hlen

theorem engineAfter_eq (calls : List (String × List Nat)) :
    ∀ (e : WorkflowEngine) (supply : Nat), engineAfter e supply calls = e := by
  induction calls with
  | nil => intro e s; rfl
  | cons c rest ih => intro e s; simpa [engineAfter, WorkflowEngine.trigger_workflow] using ih e (s + 1)

theorem runTriggers_mem (calls : List (String × List Nat)) :
    ∀ (e : WorkflowEngine) (supply : Nat) (r : Except String String),
      r ∈ runTriggers e supply calls →
      ∃ i, i < calls.length ∧ r = .ok (execIdString (supply + i)) := by
  induction calls with
  | nil => intro e s r hr; simp [runTriggers] at hr
  | cons c rest ih =>
    intro e s r hr
    simp only [runTriggers, List.mem_cons] at hr
    rcases hr with hr | hr
    · exact ⟨0, by simp, by simpa [WorkflowEngine.trigger_workflow] using hr⟩
    · rcases ih _ _ _ hr with ⟨i, hi, hrq⟩
      refine ⟨i + 1, by simpa using Nat.succ_lt_succ hi, ?_⟩
      have hsup : (e.trigger_workflow c.1 c.2 s).supply = s + 1 := rfl
      rw [hsup] at hrq
      have harith : s + 1 + i = s + (i + 1) := by omega
      rwa [harith] at hrq

theorem runTriggers_length (calls : List (String × List Nat)) :
    ∀ (e : WorkflowEngine) (supply : Nat),
      (runTriggers e supply calls).length = calls.length := by
  induction calls with
  | nil => intro e s; rfl
  | cons c rest ih => intro e s; simpa [runTriggers] using ih _ _

theorem runTriggers_nodup (calls : List (String × List Nat)) :
    ∀ (e : WorkflowEngine) (supply : Nat), (runTriggers e supply calls).Nodup := by
  induction calls with
  | nil => intro e s; simp [runTriggers]
  | cons c rest ih =>
    intro e s
    simp only [runTriggers, List.nodup_cons]
    refine ⟨?_, ih _ _⟩
    intro hmem
    rcases runTriggers_mem rest _ _ _ hmem with ⟨i, _, hrq⟩
    simp only [WorkflowEngine.trigger_workflow] at hrq
    have : execIdString s = execIdString (s + 1 + i) := by
      injection hrq
    have := execIdString_injective this
    omega

theorem parseU16_le (s : String) (v : Nat) (h : parseU16 s = some v) : v ≤ 65535 := by
  unfold parseU16 at h
  dsimp only at h
  split_ifs at h
  simp_all

theorem parseU16_getD_le (s : String) : (parseU16 s).getD 5678 ≤ 65535 := by
  cases h : parseU16 s with
  | none => simp
  | some v => simpa using parseU16_le s v h

/-- C1: for every webhook POST that is accepted (trigger_workflow returning
Ok), the response is a 200 carrying the execution id, and it is a function of
the trigger result alone — nothing about any run outcome can influence it. -/
theorem c1_accepted_response_carries_execution_id
    (e : WorkflowEngine) (id : String) (body : List Nat) (supply : Nat)
    (execId : String)
    (hacc : (e.trigger_workflow id body supply).result = .ok execId) :
    webhookResponse e id body supply =
      { status := 200,
        body := .obj [("message", .str "Workflow triggered successfully"),
                      ("executionId", .str execId)] } ∧
    ∀ (e2 : WorkflowEngine) (id2 : String) (body2 : List Nat) (s2 : Nat),
      (e2.trigger_workflow id2 body2 s2).result
        = (e.trigger_workflow id body supply).result →
      webhookResponse e2 id2 body2 s2 = webhookResponse e id body supply := by
  constructor
  · unfold webhookResponse
    rw [hacc]
    rfl
  · intro e2 id2 body2 s2 h
    unfold webhookResponse
    rw [h]

/-- Witness for C1 at a concrete accepted request. -/
theorem c1_witness :
    (WorkflowEngine.new.trigger_workflow "wf-1" [] 0).result
      = .ok (execIdString 0) ∧
    webhookResponse WorkflowEngine.new "wf-1" [] 0 =
      { status := 200,
        body := .obj [("message", .str "Workflow triggered successfully"),
                      ("executionId", .str (execIdString 0))] } :=
  ⟨rfl,
   (c1_accepted_response_carries_execution_id WorkflowEngine.new "wf-1" [] 0
      (execIdString 0) rfl).1⟩

/-- C2 counterexample: an id naming no workflow whatsoever is still accepted —
trigger_workflow returns Ok with an execution id and the webhook answers 200,
never 404/UnknownWorkflow.  The mock has no workflow store at all. -/
theorem c2_counterexample :
    (WorkflowEngine.new.trigger_workflow "no-such-workflow" [] 0).result
      = .ok (execIdString 0) ∧
    (webhookResponse WorkflowEngine.new "no-such-workflow" [] 0).status = 200 ∧
    ¬ (webhookResponse WorkflowEngine.new "no-such-workflow" [] 0).status = 404 := by
  refine ⟨rfl, rfl, ?_⟩
  have h200 : (webhookResponse WorkflowEngine.new "no-such-workflow" [] 0).status = 200 := rfl
  omega

/-- C2 amended: the mock trigger boundary accepts every workflowId — for all
(id, payload) the engine returns Ok with a fresh execution id and the webhook
responds 200; no UnknownWorkflow (404) failure path exists in the code. -/
theorem c2_amended_trigger_accepts_every_workflow_id
    (e : WorkflowEngine) (id : String) (body : List Nat) (supply : Nat) :
    (e.trigger_workflow id body supply).result = .ok (execIdString supply) ∧
    (webhookResponse e id body supply).status = 200 :=
  ⟨rfl, rfl⟩

/-- C3: every trigger invocation yields exactly one execution handle, every
handle is an Ok execution id, and handles are pairwise distinct across any
call sequence — including sequences repeating an identical (workflowId,
payload) pair, so there is no deduplication on payload equality. -/
theorem c3_every_trigger_creates_fresh_execution
    (e : WorkflowEngine) (supply : Nat) (calls : List (String × List Nat)) :
    (runTriggers e supply calls).length = calls.length ∧
    (∀ r ∈ runTriggers e supply calls, ∃ n, r = .ok (execIdString n)) ∧
    (runTriggers e supply calls).Nodup := by
  refine ⟨runTriggers_length calls e supply, ?_, runTriggers_nodup calls e supply⟩
  intro r hr
  rcases runTriggers_mem calls e supply r hr with ⟨i, _, hrq⟩
  exact ⟨supply + i, hrq⟩

/-- Witness for C3 on a concrete sequence that repeats one payload. -/
theorem c3_witness :
    (runTriggers WorkflowEngine.new 0 [("wf", [1]), ("wf", [1])]).length = 2 ∧
    (runTriggers WorkflowEngine.new 0 [("wf", [1]), ("wf", [1])]).Nodup := by
  have h := c3_every_trigger_creates_fresh_execution WorkflowEngine.new 0
    [("wf", [1]), ("wf", [1])]
  exact ⟨by simpa using h.1, h.2.2⟩

/-- C4: the mock webhook handler is synchronous trigger-and-wait — its trace
is the incoming-request log, then the whole trigger_workflow trace (50ms
delay included), and only then the respond event, whose value is computed
from the completed trigger result; no response occurs during the trigger. -/
theorem c4_webhook_is_synchronous_trigger_and_wait
    (e : WorkflowEngine) (id : String) (body : List Nat) (supply : Nat) :
    (webhook_trigger e id body supply).trace =
      Event.log ("  [TRIGGER] Incoming webhook for workflow ID: " ++ id) ::
        ((e.trigger_workflow id body supply).trace ++
          [Event.respond (webhookResponseFor (e.trigger_workflow id body supply).result)]) ∧
    Event.sleepMs 50 ∈ (e.trigger_workflow id body supply).trace ∧
    ∀ r : HttpResponse, Event.respond r ∉ (e.trigger_workflow id body supply).trace := by
  refine ⟨rfl, ?_, ?_⟩
  · simp [WorkflowEngine.trigger_workflow]
  · intro r h
    simp [WorkflowEngine.trigger_workflow] at h

/-- Witness for C4 at a concrete request. -/
theorem c4_witness :
    Event.sleepMs 50 ∈ (WorkflowEngine.new.trigger_workflow "wf" [] 0).trace ∧
    Event.respond status_check ∉ (WorkflowEngine.new.trigger_workflow "wf" [] 0).trace :=
  ⟨(c4_webhook_is_synchronous_trigger_and_wait WorkflowEngine.new "wf" [] 0).2.1,
   (c4_webhook_is_synchronous_trigger_and_wait WorkflowEngine.new "wf" [] 0).2.2 status_check⟩

/-- C5: the engine's one field is the is_running flag — false at new, true
after start_worker; trigger_workflow neither reads it (its result, supply and
trace do not depend on the engine value) nor writes it (the engine passes
through unchanged), so after start_worker any sequence of trigger calls
leaves the engine state intact with the flag still true. -/
theorem c5_engine_only_state_is_running_flag :
    WorkflowEngine.new.is_running = false ∧
    (∀ e : WorkflowEngine, e.start_worker.is_running = true) ∧
    (∀ (e : WorkflowEngine) (id : String) (body : List Nat) (s : Nat),
      (e.trigger_workflow id body s).engine = e) ∧
    (∀ (e1 e2 : WorkflowEngine) (id : String) (body : List Nat) (s : Nat),
      (e1.trigger_workflow id body s).result = (e2.trigger_workflow id body s).result ∧
      (e1.trigger_workflow id body s).supply = (e2.trigger_workflow id body s).supply ∧
      (e1.trigger_workflow id body s).trace = (e2.trigger_workflow id body s).trace) ∧
    (∀ (s : Nat) (calls : List (String × List Nat)),
      engineAfter WorkflowEngine.new.start_worker s calls
        = WorkflowEngine.new.start_worker ∧
      (engineAfter WorkflowEngine.new.start_worker s calls).is_running = true) := by
  refine ⟨rfl, fun e => rfl, fun e id body s => rfl,
    fun e1 e2 id body s => ⟨rfl, rfl, rfl⟩, ?_⟩
  intro s calls
  refine ⟨engineAfter_eq calls _ s, ?_⟩
  rw [engineAfter_eq calls _ s]
  rfl

/-- C8: every error branch at the mock service boundaries is dead code —
connect always returns Ok so main's fatal-exit branch never runs, and
trigger_workflow always returns Ok so webhook_trigger's 500 branch never
produces a response. -/
theorem c8_mock_error_branches_unreachable :
    (∀ db : DatabaseService, (db.connect).2 = .ok ()) ∧
    (∀ db : DatabaseService, mainDbStep db = .proceed) ∧
    (∀ (e : WorkflowEngine) (id : String) (body : List Nat) (s : Nat),
      (e.trigger_workflow id body s).result = .ok (execIdString s)) ∧
    (∀ (e : WorkflowEngine) (id : String) (body : List Nat) (s : Nat),
      (webhookResponse e id body s).status = 200) :=
  ⟨fun _ => rfl, fun _ => rfl, fun _ _ _ _ => rfl, fun _ _ _ _ => rfl⟩

/-- C9: Config::load is total — the port is the parsed PORT value when PORT
is set and parses as a u16, and 5678 when PORT is unset or unparseable (the
default string "5678" also parses to 5678); database_url is DATABASE_URL when
set and the postgres default otherwise; the port always fits in u16. -/
theorem c9_config_load_total_with_defaults (env : Env) :
    Config.load env =
      { port :=
          match env "PORT" with
          | none => 5678
          | some s => (parseU16 s).getD 5678,
        database_url :=
          match env "DATABASE_URL" with
          | none => "postgres://user@host/n8n"
          | some u => u } ∧
    (Config.load env).port ≤ 65535 := by
  constructor
  · unfold Config.load
    cases hp : env "PORT" <;> cases hd : env "DATABASE_URL" <;>
      simp [hp, hd, show parseU16 "5678" = some 5678 from by decide]
  · exact parseU16_getD_le _

/-- C10: status_check is a constant — every invocation returns HTTP 200 with
exactly the fixed JSON body, independent of any state. -/
theorem c10_status_check_constant_response :
    status_check =
      { status := 200,
        body := .obj [("status", Json.str "ok"),
                      ("service", Json.str "n8n-clone-rust-backend"),
                      ("version", Json.str "0.1.0-bogus")] } := rfl

/-- Modelled from the spec: NodeSpec — the repository has no engine source,
so the data model follows section 3 of the spec; only the fields the planner
and validator inspect are kept (parameters, onError and retry are opaque to
both). -/
structure NodeSpec where
  id : String
  nodeType : String
deriving DecidableEq

/-- Modelled from the spec: Connection (fromNodeId, fromOutputIndex) to
(toNodeId, toInputIndex); isError marks edges excluded from the
"non-error edge" subgraph that validation and planning operate on. -/
structure Connection where
  fromNode : String
  fromOutput : Nat
  toNode : String
  toInput : Nat
  isError : Bool
deriving DecidableEq

/-- Modelled from the spec: WorkflowDefinition with an ordered node list
(declaration order) and a set of connections. -/
structure WorkflowDefinition where
  defId : String
  nodes : List NodeSpec
  connections : List Connection
deriving DecidableEq

/-- Declared node ids, in declaration order. -/
def nodeIds (d : WorkflowDefinition) : List String :=
  d.nodes.map (·.id)

/-- Sources of the non-error edges into node n. -/
def nonErrorDeps (conns : List Connection) (n : String) : List String :=
  (conns.filter fun c => !c.isError && c.toNode == n).map (·.fromNode)

/-- A node is ready for the next level when all its non-error dependencies
are already placed in earlier levels. -/
def readyNode (conns : List Connection) (placed : List String) (n : String) : Bool :=
  (nonErrorDeps conns n).all fun d => placed.contains d

/-- The next Kahn level: every remaining node whose non-error dependencies
are all placed, kept in declaration order (filter preserves order). -/
def nextLevel (conns : List Connection) (placed remaining : List String) : List String :=
  remaining.filter (readyNode conns placed)

/-- Modelled from the spec: Kahn's topological ordering grouped into levels —
level k holds every node whose dependencies are satisfied by levels below k;
fuel bounds the rounds (one per level; at most one level per node). -/
def planLevels (conns : List Connection) : Nat → List String → List String → List (List String)
  | 0, _, _ => []
  | fuel+1, placed, remaining =>
    if nextLevel conns placed remaining = [] then []
    else nextLevel conns placed remaining ::
      planLevels conns fuel (placed ++ nextLevel conns placed remaining)
        (remaining.filter fun n => !(nextLevel conns placed remaining).contains n)

/-- Modelled from the spec: plan(definition) — topological levels over the
non-error-edge graph, ties within a level broken by declaration order. -/
def plan (d : WorkflowDefinition) : List (List String) :=
  planLevels d.connections d.nodes.length [] (nodeIds d)

theorem mem_nonErrorDeps (conns : List Connection) (n x : String) :
    x ∈ nonErrorDeps conns n ↔
      ∃ c, c ∈ conns ∧ c.isError = false ∧ c.toNode = n ∧ c.fromNode = x := by
  simp only [nonErrorDeps, List.mem_map, List.mem_filter, Bool.and_eq_true,
    Bool.not_eq_true', beq_iff_eq]
  constructor
  · rintro ⟨c, ⟨hc, he, ht⟩, hf⟩
    exact ⟨c, hc, he, ht, hf⟩
  · rintro ⟨c, hc, he, ht, hf⟩
    exact ⟨c, ⟨hc, he, ht⟩, hf⟩

theorem all_congr_of_mem_iff {p : String → Bool} {l1 l2 : List String}
    (h : ∀ x, x ∈ l1 ↔ x ∈ l2) : l1.all p = l2.all p := by
  cases hb : l2.all p
  · rcases List.all_eq_false.mp hb with ⟨x, hx, hpx⟩
    exact List.all_eq_false.mpr ⟨x, (h x).mpr hx, hpx⟩
  · rw [List.all_eq_true] at hb ⊢
    intro x hx
    exact hb x ((h x).mp hx)

theorem readyNode_congr {conns1 conns2 : List Connection}
    (h : ∀ c, c ∈ conns1 ↔ c ∈ conns2) (placed : List String) (n : String) :
    readyNode conns1 placed n = readyNode conns2 placed n := by
  apply all_congr_of_mem_iff
  intro x
  simp only [mem_nonErrorDeps]
  constructor
  · rintro ⟨c, hc, rest⟩
    exact ⟨c, (h c).mp hc, rest⟩
  · rintro ⟨c, hc, rest⟩
    exact ⟨c, (h c).mpr hc, rest⟩

theorem nextLevel_congr {conns1 conns2 : List Connection}
    (h : ∀ c, c ∈ conns1 ↔ c ∈ conns2) (placed remaining : List String) :
    nextLevel conns1 placed remaining = nextLevel conns2 placed remaining :=
  List.filter_congr fun n _ => readyNode_congr h placed n

theorem planLevels_congr {conns1 conns2 : List Connection}
    (h : ∀ c, c ∈ conns1 ↔ c ∈ conns2) :
    ∀ (fuel : Nat) (placed remaining : List String),
      planLevels conns1 fuel placed remaining = planLevels conns2 fuel placed remaining := by
  intro fuel
  induction fuel with
  | zero => intro placed remaining; rfl
  | succ f ih =>
    intro placed remaining
    simp only [planLevels]
    rw [nextLevel_congr h placed remaining]
    split
    · rfl
    · rw [ih]

theorem planLevels_sublist {conns : List Connection} :
    ∀ (fuel : Nat) (placed remaining base : List String),
      remaining.Sublist base →
      ∀ lvl ∈ planLevels conns fuel placed remaining, lvl.Sublist base := by
  intro fuel
  induction fuel with
  | zero => intro _ _ _ _ lvl hl; simp [planLevels] at hl
  | succ f ih =>
    intro placed remaining base hrb lvl hlvl
    simp only [planLevels] at hlvl
    split at hlvl
    · simp at hlvl
    · rcases List.mem_cons.mp hlvl with rfl | hmem
      · exact (List.filter_sublist _).trans hrb
      · exact ih _ _ base ((List.filter_sublist _).trans hrb) lvl hmem

/-- C6: plan is deterministic — it depends only on the definition (same node
declaration order, same connection set, in any storage order, give the same
levels), and within each level nodes appear in declaration order, so repeated
calls on the same definition are reproducible with ties broken by declaration
order. -/
theorem c6_plan_deterministic (d1 d2 : WorkflowDefinition)
    (hn : d1.nodes = d2.nodes)
    (hc : d1.connections.Perm d2.connections) :
    plan d1 = plan d2 ∧ ∀ lvl ∈ plan d1, lvl.Sublist (nodeIds d1) := by
  constructor
  · unfold plan
    rw [show nodeIds d1 = nodeIds d2 from by rw [nodeIds, nodeIds, hn], hn]
    exact planLevels_congr (fun c => hc.mem_iff) _ _ _
  · intro lvl hl
    exact planLevels_sublist _ _ _ _ (List.Sublist.refl _) lvl hl

/-- Concrete two-node chain used by the C6 witness. -/
def wfChainA : WorkflowDefinition :=
  { defId := "w",
    nodes := [{ id := "a", nodeType := "trigger" }, { id := "b", nodeType := "http" }],
    connections := [{ fromNode := "a", fromOutput := 0, toNode := "b", toInput := 0, isError := false },
                    { fromNode := "a", fromOutput := 1, toNode := "b", toInput := 1, isError := false }] }

/-- The same definition with its connection list stored in the other order. -/
def wfChainB : WorkflowDefinition :=
  { defId := "w",
    nodes := [{ id := "a", nodeType := "trigger" }, { id := "b", nodeType := "http" }],
    connections := [{ fromNode := "a", fromOutput := 1, toNode := "b", toInput := 1, isError := false },
                    { fromNode := "a", fromOutput := 0, toNode := "b", toInput := 0, isError := false }] }

/-- Witness for C6 on the concrete pair of definitions. -/
theorem c6_witness :
    plan wfChainA = plan wfChainB ∧ ∀ lvl ∈ plan wfChainA, lvl.Sublist (nodeIds wfChainA) :=
  c6_plan_deterministic wfChainA wfChainB rfl (by decide)

/-- Targets of the non-error edges out of node n. -/
def succs (conns : List Connection) (n : String) : List String :=
  (conns.filter fun c => !c.isError && c.fromNode == n).map (·.toNode)

/-- The non-error edge relation of a connection set. -/
def EdgeRel (conns : List Connection) (u v : String) : Prop :=
  ∃ c, c ∈ conns ∧ c.isError = false ∧ c.fromNode = u ∧ c.toNode = v

/-- A cycle in the non-error subgraph: a nonempty edge path from some node
back to itself. -/
def HasCycle (d : WorkflowDefinition) : Prop :=
  ∃ n, Relation.TransGen (EdgeRel d.connections) n n

/-- State of the three-color traversal: gray is the stack of the current
path (head deepest), black the finished nodes in finishing order; a node in
neither list is white. -/
structure DfsState where
  gray : List String
  black : List String
deriving DecidableEq

/-- Result of the traversal: normal completion, a back edge to a gray node,
or fuel exhaustion (unreachable when started with dfsFuel). -/
inductive DfsRes where
  | ok (st : DfsState)
  | cycle
  | fuelOut
deriving DecidableEq

/-- Modelled from the spec: three-color depth-first traversal — a black node
is skipped, a gray node signals a back edge (the cycle case), a white node is
pushed gray, its successors are visited depth-first, then it is popped and
appended black. Every call consumes one fuel unit. -/
def visits (conns : List Connection) : Nat → DfsState → List String → DfsRes
  | 0, _, _ => .fuelOut
  | _+1, st, [] => .ok st
  | fuel+1, st, n :: rest =>
    if n ∈ st.black then visits conns fuel st rest
    else if n ∈ st.gray then .cycle
    else
      match visits conns fuel { gray := n :: st.gray, black := st.black } (succs conns n) with
      | .ok st2 => visits conns fuel { gray := st.gray, black := st2.black ++ [n] } rest
      | r => r

/-- Validation failure taxonomy (the CycleDetected path payload is omitted). -/
inductive ValidationError where
  | DuplicateNodeId
  | InvalidConnection
  | CycleDetected
deriving DecidableEq

/-- Fuel that provably suffices for the whole traversal. -/
def dfsFuel (d : WorkflowDefinition) : Nat :=
  d.nodes.length * (d.connections.length + 1) + d.nodes.length + 1

/-- Modelled from the spec: validation — (a) node-id uniqueness, (b)
connection-endpoint existence, (c) cycle detection over the non-error-edge
subgraph by the three-color DFS started from every declared node in order.
UnreachableNode is a non-failing warning in the spec and is not modelled. -/
def validate (d : WorkflowDefinition) : Option ValidationError :=
  if ¬ (nodeIds d).Nodup then some .DuplicateNodeId
  else if ¬ (∀ c ∈ d.connections, c.fromNode ∈ nodeIds d ∧ c.toNode ∈ nodeIds d) then
    some .InvalidConnection
  else
    match visits d.connections (dfsFuel d) { gray := [], black := [] } (nodeIds d) with
    | .cycle => some .CycleDetected
    | _ => none

theorem mem_succs (conns : List Connection) (n v : String) :
    v ∈ succs conns n ↔ EdgeRel conns n v := by
  simp only [succs, EdgeRel, List.mem_map, List.mem_filter, Bool.and_eq_true,
    Bool.not_eq_true', beq_iff_eq]
  constructor
  · rintro ⟨c, ⟨hc, he, hf⟩, ht⟩
    exact ⟨c, hc, he, hf, ht⟩
  · rintro ⟨c, hc, he, hf, ht⟩
    exact ⟨c, ⟨hc, he, hf⟩, ht⟩

theorem succs_length_le (conns : List Connection) (n : String) :
    (succs conns n).length ≤ conns.length := by
  simpa [succs] using List.length_filter_le _ conns

/-- The gray stack is a path: each entry has an edge to the entry above it. -/
def GrayChain (conns : List Connection) (gray : List String) : Prop :=
  List.Chain' (fun a b => EdgeRel conns b a) gray

/-- Every pending node is a successor of the top of the gray stack (vacuous
at the root calls, where the stack is empty). -/
def TodoBelow (conns : List Connection) (gray todo : List String) : Prop :=
  ∀ h ∈ gray.head?, ∀ x ∈ todo, EdgeRel conns h x

theorem todoBelow_tail {conns : List Connection} {gray : List String}
    {n : String} {rest : List String} (h : TodoBelow conns gray (n :: rest)) :
    TodoBelow conns gray rest :=
  fun g hg x hx => h g hg x (List.mem_cons_of_mem n hx)

theorem chain_reaches {conns : List Connection} :
    ∀ (t : List String) (a : String), GrayChain conns (a :: t) → ∀ x ∈ a :: t,
      Relation.ReflTransGen (EdgeRel conns) x a := by
  intro t
  induction t with
  | nil =>
    intro a _ x hx
    have hxa : x = a := by simpa using hx
    subst hxa
    exact Relation.ReflTransGen.refl
  | cons b t2 ih =>
    intro a hch x hx
    rcases List.mem_cons.mp hx with rfl | hx2
    · exact Relation.ReflTransGen.refl
    · have hpair := List.chain'_cons.mp hch
      exact Relation.ReflTransGen.tail (ih b hpair.2 x hx2) hpair.1

theorem cycle_of_gray_hit {conns : List Connection} {gray : List String} {n : String}
    (hch : GrayChain conns gray) (hn : n ∈ gray)
    (hhead : ∀ h ∈ gray.head?, EdgeRel conns h n) :
    ∃ m, Relation.TransGen (EdgeRel conns) m m := by
  rcases gray with _ | ⟨h, t⟩
  · simp at hn
  · have hreach := chain_reaches t h hch n hn
    have hstep : EdgeRel conns h n := hhead h (by simp)
    exact ⟨n, Relation.TransGen.tail' hreach hstep⟩

theorem visits_cycle_sound {conns : List Connection} :
    ∀ (fuel : Nat) (st : DfsState) (todo : List String),
      GrayChain conns st.gray → TodoBelow conns st.gray todo →
      visits conns fuel st todo = .cycle →
      ∃ m, Relation.TransGen (EdgeRel conns) m m := by
  intro fuel
  induction fuel with
  | zero => intro st todo _ _ hv; simp [visits] at hv
  | succ f ih =>
    intro st todo hch htd hv
    cases todo with
    | nil => simp [visits] at hv
    | cons n rest =>
      simp only [visits] at hv
      by_cases hb : n ∈ st.black
      · rw [if_pos hb] at hv
        exact ih st rest hch (todoBelow_tail htd) hv
      · rw [if_neg hb] at hv
        by_cases hg : n ∈ st.gray
        · exact cycle_of_gray_hit hch hg
            (fun h hh => htd h hh n (List.mem_cons_self n rest))
        · rw [if_neg hg] at hv
          cases hin : visits conns f { gray := n :: st.gray, black := st.black } (succs conns n) with
          | ok st2 =>
            simp only [hin] at hv
            exact ih { gray := st.gray, black := st2.black ++ [n] } rest hch
              (todoBelow_tail htd) hv
          | cycle =>
            refine ih _ (succs conns n) ?_ ?_ hin
            · refine List.chain'_cons'.mpr ⟨?_, hch⟩
              intro b hbh
              exact htd b hbh n (List.mem_cons_self n rest)
            · intro h hh x hx
              have hhn : n = h := by simpa using hh
              subst hhn
              exact (mem_succs conns n x).mp hx
          | fuelOut =>
            simp only [hin] at hv
            exact absurd hv (by simp)

/-- Finish-order invariant on the black list: every black node's non-error
successors are black and finished strictly earlier. -/
def RankOk (conns : List Connection) (b : List String) : Prop :=
  ∀ u v, u ∈ b → EdgeRel conns u v → v ∈ b ∧ List.indexOf v b < List.indexOf u b

theorem rankOk_append_single {conns : List Connection} {b : List String} {n : String}
    (hb : RankOk conns b) (hn : n ∉ b)
    (hsu : ∀ v, EdgeRel conns n v → v ∈ b) :
    RankOk conns (b ++ [n]) := by
  intro u v hu he
  rcases List.mem_append.mp hu with hub | hun
  · rcases hb u v hub he with ⟨hvb, hlt⟩
    refine ⟨List.mem_append.mpr (Or.inl hvb), ?_⟩
    rw [List.indexOf_append_of_mem hvb, List.indexOf_append_of_mem hub]
    exact hlt
  · have hun2 : u = n := by simpa using hun
    subst hun2
    have hvb := hsu v he
    refine ⟨List.mem_append.mpr (Or.inl hvb), ?_⟩
    rw [List.indexOf_append_of_mem hvb, List.indexOf_append_of_not_mem hn,
      List.indexOf_cons_self]
    have hlen : List.indexOf v b < b.length := List.indexOf_lt_length.mpr hvb
    omega

theorem visits_ok_props {conns : List Connection} :
    ∀ (fuel : Nat) (st : DfsState) (todo : List String) (st2 : DfsState),
      visits conns fuel st todo = .ok st2 →
      st2.gray = st.gray ∧
      (∀ x ∈ st.black, x ∈ st2.black) ∧
      (∀ x ∈ todo, x ∈ st2.black) ∧
      (∀ x, x ∈ st2.black → x ∈ st.black ∨ x ∉ st.gray) ∧
      (RankOk conns st.black → RankOk conns st2.black) := by
  intro fuel
  induction fuel with
  | zero => intro st todo st2 hv; simp [visits] at hv
  | succ f ih =>
    intro st todo st2 hv
    cases todo with
    | nil =>
      simp only [visits] at hv
      cases hv
      exact ⟨rfl, fun x hx => hx, by simp, fun x hx => Or.inl hx, id⟩
    | cons n rest =>
      simp only [visits] at hv
      by_cases hb : n ∈ st.black
      · rw [if_pos hb] at hv
        rcases ih st rest st2 hv with ⟨hgr, hmono, htodo, hnew, hrank⟩
        refine ⟨hgr, hmono, ?_, hnew, hrank⟩
        intro x hx
        rcases List.mem_cons.mp hx with rfl | hx2
        · exact hmono x hb
        · exact htodo x hx2
      · rw [if_neg hb] at hv
        by_cases hg : n ∈ st.gray
        · rw [if_pos hg] at hv
          exact absurd hv (by simp)
        · rw [if_neg hg] at hv
          cases hin : visits conns f { gray := n :: st.gray, black := st.black } (succs conns n) with
          | ok stm =>
            simp only [hin] at hv
            rcases ih _ _ stm hin with ⟨hg1, hmono1, htodo1, hnew1, hrank1⟩
            rcases ih _ _ st2 hv with ⟨hg2, hmono2, htodo2, hnew2, hrank2⟩
            have hnstm : n ∉ stm.black := by
              intro hmem
              rcases hnew1 n hmem with h1 | h2
              · exact hb h1
              · exact h2 (List.mem_cons_self n st.gray)
            refine ⟨hg2, ?_, ?_, ?_, ?_⟩
            · intro x hx
              exact hmono2 x (List.mem_append.mpr (Or.inl (hmono1 x hx)))
            · intro x hx
              rcases List.mem_cons.mp hx with rfl | hx2
              · exact hmono2 x (List.mem_append.mpr (Or.inr (by simp)))
              · exact htodo2 x hx2
            · intro x hx
              rcases hnew2 x hx with h1 | h2
              · rcases List.mem_append.mp h1 with h3 | h4
                · rcases hnew1 x h3 with h5 | h6
                  · exact Or.inl h5
                  · exact Or.inr fun hh => h6 (List.mem_cons_of_mem n hh)
                · have hxn : x = n := by simpa using h4
                  subst hxn
                  exact Or.inr hg
              · exact Or.inr h2
            · intro hrk
              refine hrank2 (rankOk_append_single (hrank1 hrk) hnstm ?_)
              intro v he
              exact htodo1 v ((mem_succs conns n v).mpr he)
          | cycle =>
            simp only [hin] at hv
            exact absurd hv (by simp)
          | fuelOut =>
            simp only [hin] at hv
            exact absurd hv (by simp)

theorem rankOk_no_cycle {conns : List Connection} {b : List String}
    (hb : RankOk conns b) :
    ∀ u w, Relation.TransGen (EdgeRel conns) u w → u ∈ b →
      w ∈ b ∧ List.indexOf w b < List.indexOf u b := by
  intro u w ht
  induction ht with
  | single h => intro hu; exact hb _ _ hu h
  | tail _ h ih =>
    intro hu
    rcases ih hu with ⟨hv, hlt⟩
    rcases hb _ _ hv h with ⟨hw, hlt2⟩
    exact ⟨hw, lt_trans hlt2 hlt⟩

/-- White nodes: declared nodes that are neither gray nor black. -/
def whiteCount (nodes : List String) (st : DfsState) : Nat :=
  (nodes.filter fun x => decide (x ∉ st.gray ∧ x ∉ st.black)).length

theorem length_filter_flip {p q : String → Bool} {n : String} :
    ∀ (l : List String), l.Nodup → n ∈ l → p n = true → q n = false →
      (∀ x, x ≠ n → p x = q x) →
      (l.filter q).length + 1 = (l.filter p).length := by
  intro l
  induction l with
  | nil => intro _ hn; simp at hn
  | cons a t ih =>
    intro hnd hn hp hq hpq
    have hat : a ∉ t := (List.nodup_cons.mp hnd).1
    have hndt : t.Nodup := (List.nodup_cons.mp hnd).2
    rcases List.mem_cons.mp hn with rfl | hnt
    · have hfil : t.filter p = t.filter q := by
        apply List.filter_congr
        intro x hx
        exact hpq x (fun hxn => hat (hxn ▸ hx))
      simp [List.filter_cons, hp, hq, hfil]
    · have han : a ≠ n := fun h => hat (h ▸ hnt)
      have hpq_a : p a = q a := hpq a han
      have hih := ih hndt hnt hp hq hpq
      cases hpa : p a with
      | true =>
        have hqa : q a = true := by rw [← hpq_a, hpa]
        simp only [List.filter_cons, hpa, hqa, if_true, List.length_cons]
        omega
      | false =>
        have hqa : q a = false := by rw [← hpq_a, hpa]
        simp only [List.filter_cons, hpa, hqa, if_false]
        exact hih

theorem whiteCount_mono {nodes : List String} {st3 st : DfsState}
    (hgray : st3.gray = st.gray)
    (hsub : ∀ x ∈ st.black, x ∈ st3.black) :
    whiteCount nodes st3 ≤ whiteCount nodes st := by
  unfold whiteCount
  apply List.Sublist.length_le
  apply List.monotone_filter_right
  intro x hx
  simp only [decide_eq_true_eq] at hx ⊢
  exact ⟨hgray ▸ hx.1, fun hbm => hx.2 (hsub x hbm)⟩

theorem visits_no_fuelOut {conns : List Connection} {nodes : List String}
    (hnd : nodes.Nodup) (hval : ∀ c ∈ conns, c.toNode ∈ nodes) :
    ∀ (fuel : Nat) (st : DfsState) (todo : List String),
      (∀ x ∈ todo, x ∈ nodes) →
      whiteCount nodes st * (conns.length + 1) + todo.length + 1 ≤ fuel →
      visits conns fuel st todo ≠ .fuelOut := by
  intro fuel
  induction fuel with
  | zero =>
    intro st todo _ hf
    exact absurd hf (by omega)
  | succ f ih =>
    intro st todo htodo hf
    cases todo with
    | nil => simp [visits]
    | cons n rest =>
      simp only [visits]
      by_cases hb : n ∈ st.black
      · rw [if_pos hb]
        apply ih st rest (fun x hx => htodo x (List.mem_cons_of_mem n hx))
        simp only [List.length_cons] at hf
        omega
      · rw [if_neg hb]
        by_cases hg : n ∈ st.gray
        · rw [if_pos hg]
          simp
        · rw [if_neg hg]
          have hn_nodes : n ∈ nodes := htodo n (List.mem_cons_self n rest)
          have hwc : whiteCount nodes { gray := n :: st.gray, black := st.black } + 1
              = whiteCount nodes st := by
            apply length_filter_flip nodes hnd hn_nodes
            · simp [hg, hb]
            · simp
            · intro x hxn
              by_cases hgx : x ∈ st.gray <;> by_cases hbx : x ∈ st.black <;>
                simp [List.mem_cons, hxn, hgx, hbx]
          have hsucc_nodes : ∀ x ∈ succs conns n, x ∈ nodes := by
            intro x hx
            rcases (mem_succs conns n x).mp hx with ⟨c, hc, _, _, hto⟩
            exact hto ▸ hval c hc
          have hsl : (succs conns n).length ≤ conns.length := succs_length_le conns n
          have hexp : whiteCount nodes st * (conns.length + 1)
              = whiteCount nodes { gray := n :: st.gray, black := st.black }
                  * (conns.length + 1) + (conns.length + 1) := by
            rw [← hwc]
            ring
          have hfin : whiteCount nodes { gray := n :: st.gray, black := st.black }
              * (conns.length + 1) + (succs conns n).length + 1 ≤ f := by
            simp only [List.length_cons] at hf
            omega
          have hinner := ih { gray := n :: st.gray, black := st.black } (succs conns n)
            hsucc_nodes hfin
          cases hin : visits conns f { gray := n :: st.gray, black := st.black } (succs conns n) with
          | fuelOut => exact absurd hin hinner
          | cycle => simp
          | ok stm =>
            rcases visits_ok_props f _ _ stm hin with ⟨_, hmono1, _, _, _⟩
            apply ih { gray := st.gray, black := stm.black ++ [n] } rest
              (fun x hx => htodo x (List.mem_cons_of_mem n hx))
            have hmono3 : whiteCount nodes { gray := st.gray, black := stm.black ++ [n] }
                ≤ whiteCount nodes { gray := n :: st.gray, black := st.black } := by
              unfold whiteCount
              apply List.Sublist.length_le
              apply List.monotone_filter_right
              intro x hx
              have hx2 : x ∉ st.gray ∧ x ∉ stm.black ++ [n] := by simpa using hx
              have hxn : x ≠ n := fun h => hx2.2 (by simp [h])
              have hxm : x ∉ stm.black := fun h => hx2.2 (by simp [h])
              have hxb : x ∉ st.black := fun h => hxm (hmono1 x h)
              have hxg : x ∉ n :: st.gray := by
                intro h
                rcases List.mem_cons.mp h with h | h
                · exact hxn h
                · exact hx2.1 h
              simp only [decide_eq_true_eq]
              exact ⟨hxg, hxb⟩
            have hmul : whiteCount nodes { gray := st.gray, black := stm.black ++ [n] }
                  * (conns.length + 1)
                ≤ whiteCount nodes { gray := n :: st.gray, black := st.black }
                  * (conns.length + 1) :=
              Nat.mul_le_mul_right _ hmono3
            simp only [List.length_cons] at hf
            omega

theorem transGen_first_edge {r : String → String → Prop} {a b : String}
    (h : Relation.TransGen r a b) : ∃ c, r a c := by
  induction h with
  | single h => exact ⟨_, h⟩
  | tail _ _ ih => exact ih

/-- C7: for every definition with unique node ids and valid connection
endpoints, validation fails with CycleDetected exactly when the connection
graph restricted to non-error edges has a cycle — cyclic definitions are
always rejected with CycleDetected, acyclic ones always pass the cycle
check. -/
theorem c7_cycle_detected_iff (d : WorkflowDefinition)
    (h1 : (nodeIds d).Nodup)
    (h2 : ∀ c ∈ d.connections, c.fromNode ∈ nodeIds d ∧ c.toNode ∈ nodeIds d) :
    validate d = some ValidationError.CycleDetected ↔ HasCycle d := by
  unfold validate
  rw [if_neg (not_not_intro h1), if_neg (not_not_intro h2)]
  have hfuel : visits d.connections (dfsFuel d) { gray := [], black := [] } (nodeIds d)
      ≠ .fuelOut := by
    apply visits_no_fuelOut h1 (fun c hc => (h2 c hc).2)
    · intro x hx
      exact hx
    · have hwc : whiteCount (nodeIds d) { gray := [], black := [] }
          = (nodeIds d).length := by
        simp [whiteCount]
      have hlen : (nodeIds d).length = d.nodes.length := by simp [nodeIds]
      rw [hwc, hlen]
      unfold dfsFuel
      exact le_refl _
  cases hv : visits d.connections (dfsFuel d) { gray := [], black := [] } (nodeIds d) with
  | fuelOut => exact absurd hv hfuel
  | cycle =>
    simp only [hv]
    constructor
    · intro _
      exact visits_cycle_sound (dfsFuel d) _ _ (by simp [GrayChain])
        (by intro h hh x hx; simp at hh) hv
    · intro _
      trivial
  | ok st2 =>
    simp only [hv]
    constructor
    · intro hcon
      exact absurd hcon (by simp)
    · intro hcy
      exfalso
      rcases visits_ok_props _ _ _ _ hv with ⟨_, _, htodo, _, hrank⟩
      have hrk : RankOk d.connections st2.black :=
        hrank (fun u v hu _ => absurd hu (List.not_mem_nil u))
      rcases hcy with ⟨m, ht⟩
      have hm_nodes : m ∈ nodeIds d := by
        rcases transGen_first_edge ht with ⟨x, hx⟩
        rcases hx with ⟨c, hc, _, hfrom, _⟩
        exact hfrom ▸ (h2 c hc).1
      have hmb : m ∈ st2.black := htodo m hm_nodes
      rcases rankOk_no_cycle hrk m m ht hmb with ⟨_, hlt⟩
      omega

/-- Concrete cyclic definition used by the C7 witness. -/
def wfCyclic : WorkflowDefinition :=
  { defId := "w",
    nodes := [{ id := "a", nodeType := "t" }, { id := "b", nodeType := "t" }],
    connections := [{ fromNode := "a", fromOutput := 0, toNode := "b", toInput := 0, isError := false },
                    { fromNode := "b", fromOutput := 0, toNode := "a", toInput := 0, isError := false }] }

/-- Witness for C7 on the concrete cyclic definition. -/
theorem c7_witness :
    (nodeIds wfCyclic).Nodup ∧
    (validate wfCyclic = some ValidationError.CycleDetected ↔ HasCycle wfCyclic) :=
  ⟨by decide, c7_cycle_detected_iff wfCyclic (by decide) (by decide)⟩

end N8n
